import Mathlib

/-!
Verification of the CANDO distance / ranking / benchmarking core
(`cando/cando.py`) against its natural-language specification.

Python floating-point distances are modelled as rationals extended with a
NaN element (`FD`), since every property at stake is order-theoretic.
Comparisons against NaN follow IEEE/Python semantics: every comparison
involving NaN is false.
-/

namespace Cando

/-- A Python float distance: either NaN or a finite value (modelled as ℚ). -/
inductive FD where
  | nan : FD
  | fin (q : ℚ) : FD
deriving DecidableEq, Repr

/-- Python `a < b` on distances: false whenever either side is NaN. -/
def fdLt : FD → FD → Bool
  | .fin a, .fin b => a < b
  | _, _ => false

/-- Python `a <= b` on distances: false whenever either side is NaN. -/
def fdLe : FD → FD → Bool
  | .fin a, .fin b => a ≤ b
  | _, _ => false

/-- Python `a > b` on distances: false whenever either side is NaN. -/
def fdGt : FD → FD → Bool
  | .fin a, .fin b => b < a
  | _, _ => false

/-- Python `a >= b` on distances: false whenever either side is NaN. -/
def fdGe : FD → FD → Bool
  | .fin a, .fin b => b ≤ a
  | _, _ => false

/-- The sort key used throughout `cando.py`:
`x[1] if not math.isnan(x[1]) else 100000`. -/
def sortKey : FD → ℚ
  | .nan => 100000
  | .fin q => q

/-- A neighbor-list entry: (other-compound index, distance), i.e. one element
of a `Compound.similar` list. -/
abbrev Entry := ℕ × FD

/-- The ordering by which `cando.py` sorts neighbor lists
(`sorted(c.similar, key=lambda x: x[1] if not math.isnan(x[1]) else 100000)`). -/
def entLe (a b : Entry) : Prop := sortKey a.2 ≤ sortKey b.2

instance : DecidableRel entLe := fun a b =>
  inferInstanceAs (Decidable (sortKey a.2 ≤ sortKey b.2))

instance : IsTotal Entry entLe := ⟨fun a b => le_total (sortKey a.2) (sortKey b.2)⟩

instance : IsTrans Entry entLe :=
  ⟨fun _ _ _ hab hbc => le_trans hab hbc⟩

/-- Python's `sorted` with the NaN-sentinel key: a stable sort by `sortKey`.
`List.insertionSort entLe` is stable in the same sense as CPython's sort. -/
def sortSimilar (l : List Entry) : List Entry := List.insertionSort entLe l

/-- The spec-level "sorted ascending by distance, NaN larger than every finite
value" relation on distances. -/
def fdSpecLe : FD → FD → Bool
  | .fin a, .fin b => a ≤ b
  | .nan, .fin _ => false
  | _, .nan => true

/-- The shared loop shape of the four competitive ranking closures in
`canbenchmark`: walk the neighbor list, counting while the comparison holds,
returning the count at the first entry where it fails (a full pass returns
`len(sims)`, which equals the count). -/
def scanRank (p : Entry → Bool) : List Entry → ℕ
  | [] => 0
  | s :: ss => if p s then scanRank p ss + 1 else 0

/-- `competitive_standard(sims, r)`: count while `sim[1] < r`. -/
def competitive_standard (sims : List Entry) (r : FD) : ℕ :=
  scanRank (fun s => fdLt s.2 r) sims

/-- `competitive_modified(sims, r)`: count while `sim[1] <= r`. -/
def competitive_modified (sims : List Entry) (r : FD) : ℕ :=
  scanRank (fun s => fdLe s.2 r) sims

/-- `competitive_standard_bottom(sims, r)`: count while `sim[1] > r`. -/
def competitive_standard_bottom (sims : List Entry) (r : FD) : ℕ :=
  scanRank (fun s => fdGt s.2 r) sims

/-- `competitive_modified_bottom(sims, r)`: count while `sim[1] >= r`. -/
def competitive_modified_bottom (sims : List Entry) (r : FD) : ℕ :=
  scanRank (fun s => fdGe s.2 r) sims

/- Helper lemmas about `scanRank`. -/

theorem scanRank_le_length (p : Entry → Bool) (l : List Entry) :
    scanRank p l ≤ l.length := by
  induction l with
  | nil => simp [scanRank]
  | cons s ss ih =>
    simp only [scanRank, List.length_cons]
    split
    · omega
    · omega

theorem scanRank_eq_length (p : Entry → Bool) (l : List Entry)
    (h : scanRank p l = l.length) : ∀ s ∈ l, p s = true := by
  induction l with
  | nil => intro s hs; simp at hs
  | cons s ss ih =>
    intro t ht
    simp only [scanRank, List.length_cons] at h
    by_cases hp : p s = true
    · rw [if_pos hp] at h
      rcases List.mem_cons.mp ht with rfl | hmem
      · exact hp
      · exact ih (by omega) t hmem
    · rw [if_neg hp] at h
      omega

theorem scanRank_eq_countP (p : Entry → Bool) (R : Entry → Entry → Prop)
    (l : List Entry) (hl : l.Pairwise R)
    (hmono : ∀ a b : Entry, R a b → p b = true → p a = true) :
    scanRank p l = l.countP p := by
  induction l with
  | nil => rfl
  | cons s ss ih =>
    rcases List.pairwise_cons.mp hl with ⟨hhead, htail⟩
    by_cases hp : p s = true
    · simp only [scanRank, if_pos hp, List.countP_cons, hp, if_pos]
      rw [ih htail]
    · have hzero : ss.countP p = 0 := by
        apply List.countP_eq_zero.mpr
        intro t ht hpt
        exact hp (hmono s t (hhead t ht) hpt)
      simp only [scanRank, if_neg hp, List.countP_cons, hzero]

theorem fdLt_mono (a b r : FD) (h : fdSpecLe a b = true)
    (hb : fdLt b r = true) : fdLt a r = true := by
  cases b with
  | nan => simp [fdLt] at hb
  | fin bq =>
    cases r with
    | nan => simp [fdLt] at hb
    | fin rq =>
      cases a with
      | nan => simp [fdSpecLe] at h
      | fin aq =>
        simp only [fdSpecLe, decide_eq_true_eq] at h
        simp only [fdLt, decide_eq_true_eq] at hb ⊢
        exact lt_of_le_of_lt h hb

theorem fdLe_mono (a b r : FD) (h : fdSpecLe a b = true)
    (hb : fdLe b r = true) : fdLe a r = true := by
  cases b with
  | nan => simp [fdLe] at hb
  | fin bq =>
    cases r with
    | nan => simp [fdLe] at hb
    | fin rq =>
      cases a with
      | nan => simp [fdSpecLe] at h
      | fin aq =>
        simp only [fdSpecLe, decide_eq_true_eq] at h
        simp only [fdLe, decide_eq_true_eq] at hb ⊢
        exact le_trans h hb

/-- C1. On a neighbor list sorted ascending by distance (NaN after every
finite value), `competitive_standard` returns the number of neighbors with
distance strictly below the match distance `r`, and `competitive_modified`
the number with distance at most `r`. -/
theorem ranking_policies_count_comparisons (sims : List Entry) (r : FD)
    (hs : sims.Pairwise (fun a b => fdSpecLe a.2 b.2 = true)) :
    competitive_standard sims r = sims.countP (fun s => fdLt s.2 r) ∧
    competitive_modified sims r = sims.countP (fun s => fdLe s.2 r) := by
  constructor
  · exact scanRank_eq_countP _ _ sims hs
      (fun a b hab hb => fdLt_mono a.2 b.2 r hab hb)
  · exact scanRank_eq_countP _ _ sims hs
      (fun a b hab hb => fdLe_mono a.2 b.2 r hab hb)

/-- C1 witness: a concrete sorted list with a duplicate distance and a NaN. -/
theorem ranking_policies_count_comparisons_witness :
    competitive_standard [(1, FD.fin 1), (2, FD.fin 1), (3, FD.nan)] (FD.fin 1)
      = List.countP (fun s => fdLt s.2 (FD.fin 1))
          [(1, FD.fin 1), (2, FD.fin 1), (3, FD.nan)] ∧
    competitive_modified [(1, FD.fin 1), (2, FD.fin 1), (3, FD.nan)] (FD.fin 1)
      = List.countP (fun s => fdLe s.2 (FD.fin 1))
          [(1, FD.fin 1), (2, FD.fin 1), (3, FD.nan)] :=
  ranking_policies_count_comparisons
    [(1, FD.fin 1), (2, FD.fin 1), (3, FD.nan)] (FD.fin 1) (by decide)

/-- C2 counterexample: on the singleton neighbor list with distance `0` and
match distance `r = 1`, `competitive_standard` returns the full neighbor
count `1`, yet the single neighbor DOES satisfy the policy's comparison
(`0 < 1`), refuting "rank == neighbor count means no neighbor satisfied the
comparison". -/
theorem rank_at_count_not_unsatisfied :
    competitive_standard [(0, FD.fin 0)] (FD.fin 1) = 1 ∧
    ¬ (competitive_standard [(0, FD.fin 0)] (FD.fin 1) = 1 →
        ∀ s ∈ [((0 : ℕ), FD.fin 0)], ¬ fdLt s.2 (FD.fin 1) = true) := by
  refine ⟨by decide, fun h => ?_⟩
  exact h (by decide) (0, FD.fin 0) (by decide) (by decide)

/-- C2 (amended). Every competitive ranking policy returns a rank in
`[0, neighbor count]`, and a rank equal to the neighbor count means that
EVERY neighbor satisfied the policy's comparison. -/
theorem rank_bounds_and_full_rank (sims : List Entry) (r : FD) :
    (competitive_standard sims r ≤ sims.length ∧
     competitive_modified sims r ≤ sims.length ∧
     competitive_standard_bottom sims r ≤ sims.length ∧
     competitive_modified_bottom sims r ≤ sims.length) ∧
    (competitive_standard sims r = sims.length →
        ∀ s ∈ sims, fdLt s.2 r = true) ∧
    (competitive_modified sims r = sims.length →
        ∀ s ∈ sims, fdLe s.2 r = true) ∧
    (competitive_standard_bottom sims r = sims.length →
        ∀ s ∈ sims, fdGt s.2 r = true) ∧
    (competitive_modified_bottom sims r = sims.length →
        ∀ s ∈ sims, fdGe s.2 r = true) := by
  refine ⟨⟨?_, ?_, ?_, ?_⟩, ?_, ?_, ?_, ?_⟩
  · exact scanRank_le_length _ sims
  · exact scanRank_le_length _ sims
  · exact scanRank_le_length _ sims
  · exact scanRank_le_length _ sims
  · exact scanRank_eq_length _ sims
  · exact scanRank_eq_length _ sims
  · exact scanRank_eq_length _ sims
  · exact scanRank_eq_length _ sims

/-- C2 witness: the amended theorem applied at a concrete list whose
standard rank equals the neighbor count. -/
theorem rank_bounds_and_full_rank_witness :
    competitive_standard [(0, FD.fin 0)] (FD.fin 1) ≤ 1 ∧
    ∀ s ∈ [((0 : ℕ), FD.fin 0)], fdLt s.2 (FD.fin 1) = true :=
  ⟨(rank_bounds_and_full_rank [(0, FD.fin 0)] (FD.fin 1)).1.1,
   (rank_bounds_and_full_rank [(0, FD.fin 0)] (FD.fin 1)).2.1 (by decide)⟩

/-- C3 counterexample: sorting the list whose entries are a finite distance
`200000` and a NaN places the NaN FIRST, because the code keys NaN as the
sentinel `100000`; this refutes "every NaN entry appears after every entry
whose distance is finite". -/
theorem nan_not_after_large_finite :
    sortSimilar [(0, FD.fin 200000), (1, FD.nan)]
        = [(1, FD.nan), (0, FD.fin 200000)] ∧
    ¬ (sortSimilar [(0, FD.fin 200000), (1, FD.nan)]).Pairwise
        (fun a b => a.2 = FD.nan → b.2 = FD.nan) := by
  constructor
  · decide
  · decide

/-- C3 (amended). After the sort operation, every NaN entry appears after
every entry whose finite distance is strictly below the sentinel `100000`
(NaN is keyed as `100000`, so finite distances at or above the sentinel may
precede or tie with NaN); moreover the sort permutes the list. -/
theorem sort_places_nan_after_small_finite (l : List Entry) :
    (sortSimilar l).Pairwise
        (fun a b => a.2 = FD.nan → 100000 ≤ sortKey b.2) ∧
    (sortSimilar l).Perm l := by
  constructor
  · have hs : (sortSimilar l).Pairwise entLe :=
      List.sorted_insertionSort entLe l
    refine hs.imp ?_
    intro a b hab hnan
    have : sortKey a.2 = 100000 := by rw [hnan]; rfl
    calc (100000 : ℚ) = sortKey a.2 := this.symm
      _ ≤ sortKey b.2 := hab
  · exact List.perm_insertionSort entLe l

/-! ### Pathway aggregation (`quantify_pathways` and its `check_proteins`) -/

/-- A pathway: its member proteins, given by their column indices. -/
structure PW where
  proteins : List ℕ
deriving DecidableEq, Repr

/-- The recursive `check_proteins(paths)` helper inside `quantify_pathways`,
with an explicit fuel parameter standing for the recursion depth available:
it keeps the pathways of `paths` that have at least one member protein; if
none remain, it retries on the full pathway set `allPaths`.  `none` means the
recursion depth `fuel` was exhausted without returning, i.e. the Python
function is still recursing after `fuel` fallbacks. -/
def check_proteins (allPaths : List PW) : ℕ → List PW → Option (List PW)
  | fuel, paths =>
    if 0 < (paths.filter (fun p => 0 < p.proteins.length)).length then
      some (paths.filter (fun p => 0 < p.proteins.length))
    else
      match fuel with
      | 0 => none
      | f + 1 => check_proteins allPaths f allPaths

/-- C4. If every pathway of the full set has zero member proteins — and the
indication-restricted set likewise — then `check_proteins` never returns, no
matter how much recursion depth it is granted: the fallback is unbounded
recursion, not a bounded single retry. -/
theorem check_proteins_unbounded_recursion (allPaths paths : List PW)
    (fuel : ℕ)
    (hall : ∀ p ∈ allPaths, p.proteins = [])
    (hpaths : ∀ p ∈ paths, p.proteins = []) :
    check_proteins allPaths fuel paths = none := by
  induction fuel generalizing paths with
  | zero =>
    rw [check_proteins, if_neg]
    simp only [not_lt, Nat.le_zero, List.length_eq_zero]
    rw [List.filter_eq_nil_iff]
    intro p hp
    simp [hpaths p hp]
  | succ f ih =>
    rw [check_proteins, if_neg]
    · exact ih allPaths hall
    · simp only [not_lt, Nat.le_zero, List.length_eq_zero]
      rw [List.filter_eq_nil_iff]
      intro p hp
      simp [hpaths p hp]

/-- C4 witness: with a single zero-protein pathway as both the indication's
set and the full set, no recursion depth (here 5) suffices. -/
theorem check_proteins_unbounded_recursion_witness :
    check_proteins [⟨[]⟩] 5 [⟨[]⟩] = none :=
  check_proteins_unbounded_recursion [⟨[]⟩] [⟨[]⟩] 5 (by decide) (by decide)

/-! ### Distance-file persistence (`rmsds_to_str` inside `CANDO.__init__`) -/

/-- The diagonal placeholder written by `rmsds_to_str`: `1.0` in similarity
mode, `0.0` in distance mode. -/
def placeholderVal (similarity : Bool) : ℚ := if similarity then 1 else 0

/-- The loop body of `rmsds_to_str`, walking the similar list with the
running index `si` and splicing the placeholder in front of entry `ci`. -/
def rmsdsLineAux (similarity : Bool) (ci : ℕ) : ℕ → List ℚ → List ℚ
  | _, [] => []
  | si, d :: ds =>
    (if ci = si then [placeholderVal similarity] else [])
      ++ d :: rmsdsLineAux similarity ci (si + 1) ds

/-- `rmsds_to_str(cmpd, ci)`: the sequence of decimal values written for
compound `ci`, whose (unsorted) similar list holds the distances `sims`. -/
def rmsds_to_str (similarity : Bool) (ci : ℕ) (sims : List ℚ) : List ℚ :=
  rmsdsLineAux similarity ci 0 sims

/-- The saved distance file: one `rmsds_to_str` line per compound index. -/
def saveRmsds (similarity : Bool) (simsOf : ℕ → List ℚ) (n : ℕ) :
    List (List ℚ) :=
  (List.range n).map (fun ci => rmsds_to_str similarity ci (simsOf ci))

theorem rmsdsLineAux_ge (similarity : Bool) (ci : ℕ) :
    ∀ (sims : List ℚ) (si : ℕ), ci < si →
      rmsdsLineAux similarity ci si sims = sims := by
  intro sims
  induction sims with
  | nil => intro si _; rfl
  | cons d ds ih =>
    intro si hlt
    have h : ci ≠ si := Nat.ne_of_lt hlt
    simp only [rmsdsLineAux, if_neg h, List.nil_append, List.cons.injEq,
      true_and]
    exact ih (si + 1) (Nat.lt_succ_of_lt hlt)

theorem rmsdsLineAux_of_le (similarity : Bool) (ci : ℕ) :
    ∀ (sims : List ℚ) (si : ℕ), si + sims.length ≤ ci →
      rmsdsLineAux similarity ci si sims = sims := by
  intro sims
  induction sims with
  | nil => intro si _; rfl
  | cons d ds ih =>
    intro si hle
    simp only [List.length_cons] at hle
    have h : ci ≠ si := by omega
    simp only [rmsdsLineAux, if_neg h, List.nil_append, List.cons.injEq,
      true_and]
    exact ih (si + 1) (by omega)

theorem rmsdsLineAux_of_lt (similarity : Bool) (ci : ℕ) :
    ∀ (sims : List ℚ) (si : ℕ), si ≤ ci → ci - si < sims.length →
      rmsdsLineAux similarity ci si sims
        = sims.take (ci - si)
            ++ placeholderVal similarity :: sims.drop (ci - si) := by
  intro sims
  induction sims with
  | nil =>
    intro si _ h
    simp only [List.length_nil] at h
    omega
  | cons d ds ih =>
    intro si hle hlt
    by_cases h : ci = si
    · subst h
      have hge := rmsdsLineAux_ge similarity ci ds (ci + 1) (Nat.lt_succ_self ci)
      simp [rmsdsLineAux, hge]
    · have hsi : si < ci := lt_of_le_of_ne hle (fun e => h e.symm)
      have hk : ci - si = (ci - (si + 1)) + 1 := by omega
      simp only [rmsdsLineAux, if_neg h, List.nil_append]
      rw [ih (si + 1) hsi (by simp only [List.length_cons] at hlt; omega), hk]
      simp [List.take_succ_cons, List.drop_succ_cons]

/-- C5 counterexample: with 2 compounds whose (unsorted) similar lists each
hold the single mutual distance `5`, the saved file is `[[0, 5], [5]]` — the
second (last) line has only 1 value, not 2, because the placeholder branch
`ci == si` never fires when `ci` equals the similar-list length. -/
theorem last_line_misses_placeholder :
    saveRmsds false (fun _ => [5]) 2 = [[0, 5], [5]] ∧
    ¬ (∀ line ∈ saveRmsds false (fun _ => [5]) 2, line.length = 2) := by
  constructor
  · decide
  · decide

/-- C5 (amended). For `n` compounds each holding the `n - 1` distances to the
others, the saved distance file has `n` lines; every line for a compound
index below `n - 1` holds `n` values with the placeholder (`1.0` in
similarity mode, `0.0` in distance mode) spliced in at the diagonal
position; the LAST line (compound index `n - 1`) holds only the `n - 1`
distances, with no placeholder. -/
theorem saved_distance_file_shape (similarity : Bool) (simsOf : ℕ → List ℚ)
    (n : ℕ) (hlen : ∀ ci < n, (simsOf ci).length = n - 1) :
    (saveRmsds similarity simsOf n).length = n ∧
    (∀ ci, ci + 1 < n →
        rmsds_to_str similarity ci (simsOf ci)
          = (simsOf ci).take ci
              ++ placeholderVal similarity :: (simsOf ci).drop ci ∧
        (rmsds_to_str similarity ci (simsOf ci)).length = n) ∧
    (1 ≤ n →
        rmsds_to_str similarity (n - 1) (simsOf (n - 1)) = simsOf (n - 1)) := by
  refine ⟨by simp [saveRmsds], ?_, ?_⟩
  · intro ci hci
    have hl : (simsOf ci).length = n - 1 := hlen ci (by omega)
    have heq : rmsds_to_str similarity ci (simsOf ci)
        = (simsOf ci).take ci
            ++ placeholderVal similarity :: (simsOf ci).drop ci := by
      have := rmsdsLineAux_of_lt similarity ci (simsOf ci) 0
        (Nat.zero_le ci) (by omega)
      simpa [rmsds_to_str] using this
    refine ⟨heq, ?_⟩
    rw [heq]
    simp only [List.length_append, List.length_take, List.length_cons,
      List.length_drop, hl]
    omega
  · intro hn
    have hl : (simsOf (n - 1)).length = n - 1 := hlen (n - 1) (by omega)
    have h := rmsdsLineAux_of_le similarity (n - 1) (simsOf (n - 1)) 0 (by omega)
    simpa [rmsds_to_str] using h

/-- C5 witness: 3 compounds, each with 2 distances: lines 0 and 1 carry the
placeholder at the diagonal and have 3 values, line 2 is the bare similar
list. -/
theorem saved_distance_file_shape_witness :
    (saveRmsds false (fun _ => [5, 7]) 3).length = 3 ∧
    rmsds_to_str false 0 [5, 7] = [0, 5, 7] ∧
    rmsds_to_str false 2 [5, 7] = [5, 7] := by
  have h := saved_distance_file_shape false (fun _ => [5, 7]) 3
    (by intro ci _; rfl)
  refine ⟨h.1, ?_, h.2.2 (by omega)⟩
  have h0 := (h.2.1 0 (by omega)).1
  simpa using h0

/-! ### Pathway aggregation policies (`quantify_pathways` main loop) -/

/-- The four pathway quantifier policies of `quantify_pathways`
(`'max'`, `'sum'`, `'avg'`, `'proteins'`). -/
inductive PQuant where
  | max | sum | avg | proteins
deriving DecidableEq, Repr

/-- The per-pathway signature `pw_sig`: the compound's signature scalars at
the pathway's member-protein indices. -/
def pwSig (sig : List ℚ) (pw : List ℕ) : List ℚ :=
  pw.map (fun i => sig.getD i 0)

/-- Python `max(l)` on a nonempty list of scalars. -/
def listMax : List ℚ → ℚ
  | [] => 0
  | x :: xs => xs.foldl max x

/-- Python `np.average(l)` on a nonempty list of scalars. -/
def listAvg (l : List ℚ) : ℚ := l.sum / l.length

/-- The aux-signature computed by the main loop of `quantify_pathways` for
one compound with signature `sig` over the chosen pathway set `pws` (each
pathway given by its member-protein indices): pathways with zero member
proteins are skipped; under `proteins` the member scalars are concatenated,
otherwise each pathway contributes one aggregate scalar. -/
def quantify_pathways (pq : PQuant) (sig : List ℚ) (pws : List (List ℕ)) :
    List ℚ :=
  match pq with
  | .proteins => (pws.filter (fun pw => 0 < pw.length)).flatMap (pwSig sig)
  | .max => (pws.filter (fun pw => 0 < pw.length)).map
      (fun pw => listMax (pwSig sig pw))
  | .sum => (pws.filter (fun pw => 0 < pw.length)).map
      (fun pw => (pwSig sig pw).sum)
  | .avg => (pws.filter (fun pw => 0 < pw.length)).map
      (fun pw => listAvg (pwSig sig pw))

/-- C6. Under `max`, `sum` and `avg` the aux-signature has one scalar per
pathway with at least one member protein (zero-protein pathways skipped);
under `proteins` it is the flattened list of all member-protein scalars; in
particular over two pathways of sizes 2 and 3, `max` yields length 2 and
`proteins` yields length 5. -/
theorem aux_signature_lengths (sig : List ℚ) (pws : List (List ℕ)) :
    (quantify_pathways .max sig pws).length
        = (pws.filter (fun pw => 0 < pw.length)).length ∧
    (quantify_pathways .sum sig pws).length
        = (pws.filter (fun pw => 0 < pw.length)).length ∧
    (quantify_pathways .avg sig pws).length
        = (pws.filter (fun pw => 0 < pw.length)).length ∧
    quantify_pathways .proteins sig pws = (pws.map (pwSig sig)).flatten ∧
    (quantify_pathways .max sig [[0, 1], [2, 3, 4]]).length = 2 ∧
    (quantify_pathways .proteins sig [[0, 1], [2, 3, 4]]).length = 5 := by
  refine ⟨by simp [quantify_pathways], by simp [quantify_pathways],
    by simp [quantify_pathways], ?_, ?_, ?_⟩
  · rw [quantify_pathways]
    induction pws with
    | nil => rfl
    | cons pw rest ih =>
      by_cases h : 0 < pw.length
      · simp [List.filter_cons, h, List.flatMap_cons, ih]
      · have hnil : pw = [] := by
          cases pw with
          | nil => rfl
          | cons a l => simp at h
        subst hnil
        simpa using ih
  · simp [quantify_pathways]
  · simp [quantify_pathways, pwSig]

/-! ### Continuous-mode cutoffs (`cont_metrics` inside `canbenchmark`) -/

/-- Ascending sort of a list of scalars (Python `sorted(all_v)`). -/
def sortQ (l : List ℚ) : List ℚ :=
  List.insertionSort (fun a b : ℚ => a ≤ b) l

/-- `cont_metrics()`: collect every non-zero distance from all compounds'
neighbor lists (given here as the per-compound distance lists), sort them
ascending, and return the ten cutoff tuples at the truncated-division
indices `avl/1000, avl/400, avl/200, avl/100, avl/20, avl/10, avl/5, avl/3,
avl/2, avl/1 - 1` of the sorted distribution. -/
def cont_metrics (simLists : List (List ℚ)) : List (ℕ × ℚ) :=
  [(1, (sortQ (simLists.flatten.filter (fun s => s ≠ 0))).getD
        ((simLists.flatten.filter (fun s => s ≠ 0)).length / 1000) 0),
   (2, (sortQ (simLists.flatten.filter (fun s => s ≠ 0))).getD
        ((simLists.flatten.filter (fun s => s ≠ 0)).length / 400) 0),
   (3, (sortQ (simLists.flatten.filter (fun s => s ≠ 0))).getD
        ((simLists.flatten.filter (fun s => s ≠ 0)).length / 200) 0),
   (4, (sortQ (simLists.flatten.filter (fun s => s ≠ 0))).getD
        ((simLists.flatten.filter (fun s => s ≠ 0)).length / 100) 0),
   (5, (sortQ (simLists.flatten.filter (fun s => s ≠ 0))).getD
        ((simLists.flatten.filter (fun s => s ≠ 0)).length / 20) 0),
   (6, (sortQ (simLists.flatten.filter (fun s => s ≠ 0))).getD
        ((simLists.flatten.filter (fun s => s ≠ 0)).length / 10) 0),
   (7, (sortQ (simLists.flatten.filter (fun s => s ≠ 0))).getD
        ((simLists.flatten.filter (fun s => s ≠ 0)).length / 5) 0),
   (8, (sortQ (simLists.flatten.filter (fun s => s ≠ 0))).getD
        ((simLists.flatten.filter (fun s => s ≠ 0)).length / 3) 0),
   (9, (sortQ (simLists.flatten.filter (fun s => s ≠ 0))).getD
        ((simLists.flatten.filter (fun s => s ≠ 0)).length / 2) 0),
   (10, (sortQ (simLists.flatten.filter (fun s => s ≠ 0))).getD
        ((simLists.flatten.filter (fun s => s ≠ 0)).length - 1) 0)]

/-- C7. The continuous-mode cutoffs are the values of the ascending-sorted
global non-zero distance distribution at the truncated-division indices;
for a distribution of exactly 1000 non-zero values, the 1% cutoff (tuple 4)
is the value at 0-based sorted index 10. -/
theorem cont_metrics_truncated_division_indices (simLists : List (List ℚ))
    (s : List ℚ) (hsort : s.Sorted (fun a b : ℚ => a ≤ b))
    (hperm : (simLists.flatten.filter (fun v => v ≠ 0)).Perm s) :
    cont_metrics simLists =
      [(1, s.getD (s.length / 1000) 0), (2, s.getD (s.length / 400) 0),
       (3, s.getD (s.length / 200) 0), (4, s.getD (s.length / 100) 0),
       (5, s.getD (s.length / 20) 0), (6, s.getD (s.length / 10) 0),
       (7, s.getD (s.length / 5) 0), (8, s.getD (s.length / 3) 0),
       (9, s.getD (s.length / 2) 0), (10, s.getD (s.length - 1) 0)] ∧
    (s.length = 1000 →
      (cont_metrics simLists).getD 3 (0, 0) = (4, s.getD 10 0)) := by
  have hsq : sortQ (simLists.flatten.filter (fun v => v ≠ 0)) = s := by
    refine List.eq_of_perm_of_sorted
      ((List.perm_insertionSort _ _).trans hperm) ?_ hsort
    exact List.sorted_insertionSort _ _
  have hlen : (simLists.flatten.filter (fun v => v ≠ 0)).length = s.length :=
    hperm.length_eq
  have hmain : cont_metrics simLists =
      [(1, s.getD (s.length / 1000) 0), (2, s.getD (s.length / 400) 0),
       (3, s.getD (s.length / 200) 0), (4, s.getD (s.length / 100) 0),
       (5, s.getD (s.length / 20) 0), (6, s.getD (s.length / 10) 0),
       (7, s.getD (s.length / 5) 0), (8, s.getD (s.length / 3) 0),
       (9, s.getD (s.length / 2) 0), (10, s.getD (s.length - 1) 0)] := by
    rw [cont_metrics, hsq, hlen]
  refine ⟨hmain, fun h1000 => ?_⟩
  rw [hmain, h1000]
  rfl

/-- C7 witness: a 4-value distribution, including a duplicated pair and a
zero that the filter removes: the cutoffs hit the stated indices. -/
theorem cont_metrics_truncated_division_indices_witness :
    cont_metrics [[3, 0, 1], [2, 1]] =
      [(1, 1), (2, 1), (3, 1), (4, 1), (5, 1), (6, 1), (7, 1), (8, 1),
       (9, 2), (10, 3)] := by
  have h := cont_metrics_truncated_division_indices [[3, 0, 1], [2, 1]]
    [1, 1, 2, 3] (by decide) (by decide)
  rw [h.1]
  decide

/-! ### Entity lookups (`get_compound`, `get_indication`, `get_pathway`,
`get_adr`) -/

/-- Observable outcome of an entity lookup: a found entity, a raised
`LookupError`, or a normal return of Python `None` (after printing a
message). -/
inductive LookupResult (α : Type) where
  | found (a : α)
  | raisedLookupError
  | returnedNone
deriving DecidableEq, Repr

/-- `CANDO.get_compound(id_)`: scan for the first compound with the given
id; on a miss, PRINT a message and return `None` (no exception). -/
def get_compound : List ℕ → ℕ → LookupResult ℕ
  | [], _ => .returnedNone
  | c :: cs, i => if c = i then .found c else get_compound cs i

/-- `CANDO.get_indication(ind_id)`: scan; on a miss `raise LookupError`. -/
def get_indication : List String → String → LookupResult String
  | [], _ => .raisedLookupError
  | x :: xs, i => if x = i then .found x else get_indication xs i

/-- `CANDO.get_pathway(id_)`: scan; on a miss `raise LookupError`. -/
def get_pathway : List String → String → LookupResult String
  | [], _ => .raisedLookupError
  | x :: xs, i => if x = i then .found x else get_pathway xs i

/-- `CANDO.get_adr(id_)`: scan; on a miss `raise LookupError`. -/
def get_adr : List String → String → LookupResult String
  | [], _ => .raisedLookupError
  | x :: xs, i => if x = i then .found x else get_adr xs i

/-- C9 counterexample: looking up a compound id absent from the collection
returns the `None` sentinel instead of raising `LookupError`, so the
not-found signal is NOT uniform across the four entity kinds. -/
theorem get_compound_returns_none_not_lookup_error :
    get_compound [] 0 = LookupResult.returnedNone ∧
    ¬ (get_compound [] 0 = LookupResult.raisedLookupError) := by
  constructor
  · rfl
  · decide

theorem get_compound_miss : ∀ (cs : List ℕ) (i : ℕ), i ∉ cs →
    get_compound cs i = LookupResult.returnedNone := by
  intro cs
  induction cs with
  | nil => intro i _; rfl
  | cons c rest ih =>
    intro i hi
    have h1 : c ≠ i := fun e => hi (by simp [e])
    simp only [get_compound, if_neg h1]
    exact ih i (fun m => hi (List.mem_cons_of_mem _ m))

theorem get_indication_miss : ∀ (l : List String) (s : String), s ∉ l →
    get_indication l s = LookupResult.raisedLookupError := by
  intro l
  induction l with
  | nil => intro s _; rfl
  | cons x rest ih =>
    intro s hs
    have h1 : x ≠ s := fun e => hs (by simp [e])
    simp only [get_indication, if_neg h1]
    exact ih s (fun m => hs (List.mem_cons_of_mem _ m))

theorem get_pathway_miss : ∀ (l : List String) (s : String), s ∉ l →
    get_pathway l s = LookupResult.raisedLookupError := by
  intro l
  induction l with
  | nil => intro s _; rfl
  | cons x rest ih =>
    intro s hs
    have h1 : x ≠ s := fun e => hs (by simp [e])
    simp only [get_pathway, if_neg h1]
    exact ih s (fun m => hs (List.mem_cons_of_mem _ m))

theorem get_adr_miss : ∀ (l : List String) (s : String), s ∉ l →
    get_adr l s = LookupResult.raisedLookupError := by
  intro l
  induction l with
  | nil => intro s _; rfl
  | cons x rest ih =>
    intro s hs
    have h1 : x ≠ s := fun e => hs (by simp [e])
    simp only [get_adr, if_neg h1]
    exact ih s (fun m => hs (List.mem_cons_of_mem _ m))

/-- C9 (amended). For an id absent from the collection, indication, pathway
and ADR lookups raise `LookupError`; compound lookup instead prints a
message and returns `None`. -/
theorem lookup_miss_signals (cs : List ℕ) (strs : List String) (i : ℕ)
    (s : String) (hc : i ∉ cs) (hs : s ∉ strs) :
    get_compound cs i = LookupResult.returnedNone ∧
    get_indication strs s = LookupResult.raisedLookupError ∧
    get_pathway strs s = LookupResult.raisedLookupError ∧
    get_adr strs s = LookupResult.raisedLookupError :=
  ⟨get_compound_miss cs i hc, get_indication_miss strs s hs,
   get_pathway_miss strs s hs, get_adr_miss strs s hs⟩

/-- C9 witness: concrete collections missing the queried ids. -/
theorem lookup_miss_signals_witness :
    get_compound [3, 7] 5 = LookupResult.returnedNone ∧
    get_indication ["MESH:D1"] "MESH:D2" = LookupResult.raisedLookupError ∧
    get_pathway ["MESH:D1"] "MESH:D2" = LookupResult.raisedLookupError ∧
    get_adr ["MESH:D1"] "MESH:D2" = LookupResult.raisedLookupError :=
  lookup_miss_signals [3, 7] ["MESH:D1"] 5 "MESH:D2" (by decide) (by simp)

/-! ### Neighbor-list construction never references the compound itself -/

/-- The `read_rmsds` ingestion loop for compound (line) `i`: append
`(compounds[j], score_j)` for every column `j` except the diagonal `j = i`
(`1 - s` in similarity mode). -/
def readRmsdsRow (similarity : Bool) (i : ℕ) (scores : List ℚ) :
    List (ℕ × ℚ) :=
  ((List.range scores.length).filter (fun j => j ≠ i)).map
    (fun j => (j, if similarity then 1 - scores.getD j 0 else scores.getD j 0))

/-- The condensed upper-triangular pair order of the all-pairs loop:
`for i in range(nc): for j in range(i, nc): if i == j: continue`. -/
def condensedPairs (nc : ℕ) : List (ℕ × ℕ) :=
  (List.range nc).flatMap
    (fun i => (List.range' (i + 1) (nc - (i + 1))).map (fun j => (i, j)))

/-- One step of the all-pairs loop body: append `(c2, r)` to `c1.similar`
and `(c1, r)` to `c2.similar`; the state maps each compound index to its
similar list. -/
def allPairsStep (d : ℕ → ℕ → ℚ) (acc : ℕ → List (ℕ × ℚ)) (p : ℕ × ℕ) :
    ℕ → List (ℕ × ℚ) :=
  fun k =>
    if k = p.1 then acc k ++ [(p.2, d p.1 p.2)]
    else if k = p.2 then acc k ++ [(p.1, d p.1 p.2)]
    else acc k

/-- The all-pairs distance construction: each compound's similar list after
stepping through the condensed matrix, starting from empty lists. -/
def allPairsSimilar (nc : ℕ) (d : ℕ → ℕ → ℚ) : ℕ → List (ℕ × ℚ) :=
  (condensedPairs nc).foldl (allPairsStep d) (fun _ => [])

theorem allPairsStep_no_self (d : ℕ → ℕ → ℚ) :
    ∀ (pairs : List (ℕ × ℕ)) (acc : ℕ → List (ℕ × ℚ)),
      (∀ p ∈ pairs, p.1 ≠ p.2) →
      (∀ k, k ∉ (acc k).map Prod.fst) →
      ∀ k, k ∉ ((pairs.foldl (allPairsStep d) acc) k).map Prod.fst := by
  intro pairs
  induction pairs with
  | nil => intro acc _ hacc k; exact hacc k
  | cons p rest ih =>
    intro acc hne hacc k
    simp only [List.foldl_cons]
    refine ih (allPairsStep d acc p) (fun q hq => hne q (by simp [hq])) ?_ k
    intro m
    have hp : p.1 ≠ p.2 := hne p (by simp)
    rw [allPairsStep]
    by_cases h1 : m = p.1
    · rw [if_pos h1]
      simp only [List.map_append, List.mem_append, List.map_cons,
        List.map_nil, List.mem_singleton]
      rintro (hm | hm)
      · exact hacc m hm
      · omega
    · rw [if_neg h1]
      by_cases h2 : m = p.2
      · rw [if_pos h2]
        simp only [List.map_append, List.mem_append, List.map_cons,
          List.map_nil, List.mem_singleton]
        rintro (hm | hm)
        · exact hacc m hm
        · omega
      · rw [if_neg h2]
        exact hacc m

theorem condensedPairs_ne (nc : ℕ) : ∀ p ∈ condensedPairs nc, p.1 ≠ p.2 := by
  intro p hp
  simp only [condensedPairs, List.mem_flatMap, List.mem_map,
    List.mem_range] at hp
  obtain ⟨i, _, j, hj, rfl⟩ := hp
  have := (List.mem_range'_1.mp hj).1
  simp only
  omega

/-- `q` as computed by `generate_similar_sigs`: the loop
`for ci in range(len(compounds)): if cmpd.id_ == c.id_: q = ci`, starting
from `q = 0`, i.e. the last index whose compound id equals `cid`. -/
def findQ (ids : List ℕ) (cid : ℕ) : ℕ :=
  (List.range ids.length).foldl
    (fun q ci => if ids.getD ci 0 = cid then ci else q) 0

/-- `generate_similar_sigs(cmpd)` for the compound with id `cid`: one entry
`(compounds[i].id, distances[0][i])` per index `i`, the index `q` skipped. -/
def generate_similar_sigs (ids : List ℕ) (cid : ℕ) (dist : ℕ → ℚ) :
    List (ℕ × ℚ) :=
  ((List.range ids.length).filter (fun i => i ≠ findQ ids cid)).map
    (fun i => (ids.getD i 0, dist i))

theorem findQ_foldl_no_match (ids : List ℕ) (cid : ℕ) :
    ∀ (l : List ℕ) (a : ℕ), (∀ ci ∈ l, ids.getD ci 0 ≠ cid) →
      l.foldl (fun q ci => if ids.getD ci 0 = cid then ci else q) a = a := by
  intro l
  induction l with
  | nil => intro a _; rfl
  | cons h t ih =>
    intro a hno
    simp only [List.foldl_cons, if_neg (hno h (by simp))]
    exact ih a (fun ci hci => hno ci (List.mem_cons_of_mem _ hci))

theorem findQ_foldl_unique (ids : List ℕ) (cid k : ℕ)
    (hk : ids.getD k 0 = cid) :
    ∀ (l : List ℕ) (a : ℕ), l.Nodup → k ∈ l →
      (∀ ci ∈ l, ids.getD ci 0 = cid → ci = k) →
      l.foldl (fun q ci => if ids.getD ci 0 = cid then ci else q) a = k := by
  intro l
  induction l with
  | nil => intro a _ hk'; simp at hk'
  | cons h t ih =>
    intro a hnd hmem huniq
    rcases List.nodup_cons.mp hnd with ⟨hht, hndt⟩
    by_cases hh : h = k
    · subst hh
      simp only [List.foldl_cons, if_pos hk]
      refine findQ_foldl_no_match ids cid t h ?_
      intro ci hci he
      exact hht ((huniq ci (List.mem_cons_of_mem _ hci) he) ▸ hci)
    · have hmem' : k ∈ t := by
        rcases List.mem_cons.mp hmem with rfl | ht
        · exact absurd rfl hh
        · exact ht
      have hhne : ids.getD h 0 ≠ cid := fun e => hh (huniq h (by simp) e)
      simp only [List.foldl_cons, if_neg hhne]
      exact ih a hndt hmem'
        (fun ci hci => huniq ci (List.mem_cons_of_mem _ hci))

theorem generate_similar_sigs_no_self (ids : List ℕ) (cid : ℕ)
    (dist : ℕ → ℚ) (hnd : ids.Nodup) :
    cid ∉ (generate_similar_sigs ids cid dist).map Prod.fst := by
  intro hmem
  simp only [generate_similar_sigs, List.map_map, List.mem_map,
    List.mem_filter, List.mem_range, Function.comp, decide_eq_true_eq] at hmem
  obtain ⟨i, ⟨hi, hne⟩, heq⟩ := hmem
  have hilt : i < ids.length := hi
  have hgd : ids.getD i 0 = cid := heq
  by_cases hcid : cid ∈ ids
  · obtain ⟨⟨k, hklt⟩, hkeq⟩ := List.mem_iff_get.mp hcid
    have hkd : ids.getD k 0 = cid := by
      rw [List.getD_eq_getElem ids 0 hklt]
      simpa [List.get_eq_getElem] using hkeq
    have hfq : findQ ids cid = k := by
      rw [findQ]
      refine findQ_foldl_unique ids cid k hkd (List.range ids.length) 0
        (List.nodup_range _) (List.mem_range.mpr hklt) ?_
      intro ci hci he
      have hcilt : ci < ids.length := List.mem_range.mp hci
      have h1 : ids[ci] = cid := by
        rw [List.getD_eq_getElem ids 0 hcilt] at he
        exact he
      have h2 : ids[k] = cid := by
        rw [List.getD_eq_getElem ids 0 hklt] at hkd
        exact hkd
      exact List.Nodup.getElem_inj_iff hnd |>.mp (h1.trans h2.symm)
    have : i = findQ ids cid := by
      rw [hfq]
      have h1 : ids[i] = cid := by
        rw [List.getD_eq_getElem ids 0 hilt] at hgd
        exact hgd
      have h2 : ids[k] = cid := by
        rw [List.getD_eq_getElem ids 0 hklt] at hkd
        exact hkd
      exact List.Nodup.getElem_inj_iff hnd |>.mp (h1.trans h2.symm)
    exact hne this
  · refine hcid ?_
    rw [← hgd, List.getD_eq_getElem ids 0 hilt]
    exact List.getElem_mem _

/-- C8. No neighbor-list construction path produces a self-referencing
entry: (a) reading a precomputed distance file skips the diagonal column;
(b) the all-pairs construction only appends the two distinct members of
each condensed pair to each other's lists; (c) one-vs-all generation skips
the query compound's own index (given compound ids are distinct). -/
theorem neighbor_lists_never_self_reference :
    (∀ (similarity : Bool) (i : ℕ) (scores : List ℚ),
        i ∉ (readRmsdsRow similarity i scores).map Prod.fst) ∧
    (∀ (nc : ℕ) (d : ℕ → ℕ → ℚ) (k : ℕ),
        k ∉ (allPairsSimilar nc d k).map Prod.fst) ∧
    (∀ (ids : List ℕ) (cid : ℕ) (dist : ℕ → ℚ), ids.Nodup →
        cid ∉ (generate_similar_sigs ids cid dist).map Prod.fst) := by
  refine ⟨?_, ?_, ?_⟩
  · intro similarity i scores hmem
    simp only [readRmsdsRow, List.map_map, List.mem_map, List.mem_filter,
      List.mem_range, Function.comp, decide_eq_true_eq] at hmem
    obtain ⟨j, ⟨_, hne⟩, heq⟩ := hmem
    exact hne heq
  · intro nc d k
    exact allPairsStep_no_self d (condensedPairs nc) (fun _ => [])
      (condensedPairs_ne nc) (fun _ => by simp) k
  · exact generate_similar_sigs_no_self

/-- C8 witness: concrete instances of all three construction paths. -/
theorem neighbor_lists_never_self_reference_witness :
    1 ∉ (readRmsdsRow false 1 [3, 0, 5]).map Prod.fst ∧
    1 ∉ (allPairsSimilar 3 (fun _ _ => 2) 1).map Prod.fst ∧
    5 ∉ (generate_similar_sigs [3, 5, 9] 5 (fun _ => 1)).map Prod.fst :=
  ⟨neighbor_lists_never_self_reference.1 false 1 [3, 0, 5],
   neighbor_lists_never_self_reference.2.1 3 (fun _ _ => 2) 1,
   neighbor_lists_never_self_reference.2.2 [3, 5, 9] 5 (fun _ => 1)
     (by decide)⟩

/-! ### The sort-decision gate at the top of `canbenchmark` -/

/-- The per-compound state `canbenchmark` inspects: the similar list and its
`similar_sorted` flag. -/
structure BCompound where
  similar : List Entry
  similar_sorted : Bool
deriving DecidableEq, Repr

/-- The sort phase of `canbenchmark` when neither `indication_proteins` nor
`indication_pathways` is set: IF the FIRST compound's `similar_sorted` flag
is false, sort every compound's similar list and set every flag; otherwise
do nothing. -/
def benchSortPhase : List BCompound → List BCompound
  | [] => []
  | c0 :: rest =>
    if c0.similar_sorted then c0 :: rest
    else (c0 :: rest).map (fun c => ⟨sortSimilar c.similar, true⟩)

/-- C10 counterexample: a first compound with flag false whose list holds a
finite distance `200000` and a NaN: the phase sorts, but the NaN lands
FIRST (keyed as the sentinel `100000`), refuting "sorted (ascending, NaN
last)". -/
theorem benchSortPhase_nan_not_last :
    benchSortPhase [⟨[(0, FD.fin 200000), (1, FD.nan)], false⟩]
      = [⟨[(1, FD.nan), (0, FD.fin 200000)], true⟩] ∧
    ¬ (∀ c ∈ benchSortPhase [⟨[(0, FD.fin 200000), (1, FD.nan)], false⟩],
        c.similar.Pairwise (fun a b => a.2 = FD.nan → b.2 = FD.nan)) := by
  constructor
  · decide
  · decide

/-- C10 (amended). Without indication-protein/pathway restriction, the sort
decision depends only on the FIRST compound's `similar_sorted` flag: if it
is false, every compound's neighbor list is replaced by its stable sort
ascending by the code's key (NaN keyed as the sentinel `100000`) and every
flag is set; if it is true, the compound list is returned unchanged — no
list is re-sorted, even when other compounds' lists are unsorted. -/
theorem benchSortPhase_depends_only_on_first_flag (c0 : BCompound)
    (rest : List BCompound) :
    (c0.similar_sorted = false →
        benchSortPhase (c0 :: rest)
          = (c0 :: rest).map (fun c => ⟨sortSimilar c.similar, true⟩) ∧
        ∀ c ∈ benchSortPhase (c0 :: rest),
          c.similar.Pairwise entLe ∧ c.similar_sorted = true) ∧
    (c0.similar_sorted = true → benchSortPhase (c0 :: rest) = c0 :: rest) := by
  constructor
  · intro hfalse
    have heq : benchSortPhase (c0 :: rest)
        = (c0 :: rest).map (fun c => ⟨sortSimilar c.similar, true⟩) := by
      rw [benchSortPhase, hfalse]
      simp
    refine ⟨heq, ?_⟩
    intro c hc
    rw [heq] at hc
    rcases List.mem_map.mp hc with ⟨c', _, rfl⟩
    exact ⟨List.sorted_insertionSort entLe c'.similar, rfl⟩
  · intro htrue
    rw [benchSortPhase, htrue]
    simp

/-- C10 witness: with the first compound's flag set, the phase leaves even an
unsorted second compound untouched; with it unset, both lists end up sorted
by the code's key. -/
theorem benchSortPhase_depends_only_on_first_flag_witness :
    benchSortPhase [⟨[(1, FD.fin 2)], true⟩, ⟨[(2, FD.fin 9), (0, FD.fin 3)], false⟩]
      = [⟨[(1, FD.fin 2)], true⟩, ⟨[(2, FD.fin 9), (0, FD.fin 3)], false⟩] ∧
    ∀ c ∈ benchSortPhase
        [⟨[(2, FD.fin 9), (0, FD.fin 3)], false⟩, ⟨[(1, FD.fin 2)], true⟩],
      c.similar.Pairwise entLe ∧ c.similar_sorted = true :=
  ⟨(benchSortPhase_depends_only_on_first_flag
      ⟨[(1, FD.fin 2)], true⟩
      [⟨[(2, FD.fin 9), (0, FD.fin 3)], false⟩]).2 rfl,
   ((benchSortPhase_depends_only_on_first_flag
      ⟨[(2, FD.fin 9), (0, FD.fin 3)], false⟩
      [⟨[(1, FD.fin 2)], true⟩]).1 rfl).2⟩

end Cando
